import Mathlib

/-!
Shallow embedding of the static-blog build pipeline of `render/build-pages.ts`
(helpers from `render/utils.ts`), together with proofs about its behaviour.

Strings are modelled as Lean `String` (a wrapper around `List Char`); the
character-level workers operate on `List Char`.  JavaScript regular-expression
replacements used by the source are all of a very simple shape (single
characters with the `g` flag, a literal first-occurrence `String.replace`, a
`\.md$` suffix strip, `[^\w-]` character replacement and `-+` run collapsing),
and each is modelled by a dedicated recursive function below.
-/

/-- The apostrophe character (code point 39), written via `Char.ofNat`. -/
def apos : Char := Char.ofNat 39

/-- JavaScript `\w` (no `u` flag): ASCII letters, digits and underscore
(code point 95). -/
def isWordChar (c : Char) : Bool :=
  decide ((65 ≤ c.toNat ∧ c.toNat ≤ 90) ∨ (97 ≤ c.toNat ∧ c.toNat ≤ 122) ∨
    (48 ≤ c.toNat ∧ c.toNat ≤ 57) ∨ c.toNat = 95)

/-- ASCII case folding, modelling `String.prototype.toLowerCase` on the ASCII
range (the only range that matters after `[^\w-]` replacement). -/
def asciiLower (c : Char) : Char :=
  if 65 ≤ c.toNat ∧ c.toNat ≤ 90 then Char.ofNat (c.toNat + 32) else c

/-- `startsL pat l` holds when `pat` is an initial segment of `l`. -/
def startsL : List Char → List Char → Bool
  | [], _ => true
  | _ :: _, [] => false
  | p :: ps, c :: cs => p == c && startsL ps cs

/-- `endsL pat l` holds when `pat` is a final segment of `l`. -/
def endsL (pat l : List Char) : Bool :=
  startsL pat.reverse l.reverse

/-- `occursL pat l` holds when `pat` occurs contiguously inside `l`. -/
def occursL (pat : List Char) : List Char → Bool
  | [] => startsL pat []
  | c :: cs => startsL pat (c :: cs) || occursL pat cs

/-- `String.prototype.split(sep)` for a single-character separator: the list
of (possibly empty) segments between occurrences of `sep`. -/
def splitOnCh (sep : Char) : List Char → List (List Char)
  | [] => [[]]
  | c :: rest =>
    match splitOnCh sep rest with
    | [] => [[c]]
    | s :: ss => if c = sep then [] :: s :: ss else (c :: s) :: ss

/-- `String.prototype.replace(pat, '')` with a plain-string pattern: delete
the first occurrence of `pat` (a no-op when `pat` does not occur). -/
def replaceFirst (pat : List Char) : List Char → List Char
  | [] => []
  | c :: rest =>
    if startsL pat (c :: rest) then (c :: rest).drop pat.length
    else c :: replaceFirst pat rest

/-- `String.prototype.replace(/pat$/, '')`: strip `pat` when it is a suffix. -/
def stripSuffixL (pat l : List Char) : List Char :=
  if endsL pat l then l.take (l.length - pat.length) else l

/-- `String.prototype.replace(/x/g, rep)` for a single-character pattern. -/
def replaceChar (t : Char) (rep : List Char) : List Char → List Char
  | [] => []
  | c :: rest => (if c = t then rep else [c]) ++ replaceChar t rep rest

/-- `String.prototype.replace(/[^\w-]/g, '-')`: every character that is
neither a word character nor a hyphen becomes a hyphen. -/
def replaceNonWord (l : List Char) : List Char :=
  l.map fun c => if isWordChar c || c = '-' then c else '-'

/-- `String.prototype.replace` of the global regex "dash run" with `'-'`:
collapse every run of hyphens to a single hyphen. -/
def collapseHyphens : List Char → List Char
  | [] => []
  | [c] => [c]
  | c :: d :: rest =>
    if c = '-' ∧ d = '-' then collapseHyphens (d :: rest)
    else c :: collapseHyphens (d :: rest)

/-- The slug normalisation chain shared by both scanners: lowercase, then
replace every non-word non-hyphen character by a hyphen, then collapse
hyphen runs. -/
def slugifyL (l : List Char) : List Char :=
  collapseHyphens (replaceNonWord (l.map asciiLower))

/-- String-level slug normalisation. -/
def slugify (s : String) : String :=
  ⟨slugifyL s.data⟩

/-- The characters of the literal `".md"`. -/
def mdChars : List Char := ['.', 'm', 'd']

/-- Number of word characters in a character list. -/
def wcount (l : List Char) : Nat :=
  l.countP fun c => isWordChar c

-- Sanity checks of the embedding on concrete inputs.
example : slugify "Hello, World!.md" = "hello-world-md" := by decide
example : splitOnCh '/' "a/b".data = ["a".data, "b".data] := by decide
example : replaceFirst mdChars "a.md-b.md".data = "a-b.md".data := by decide
example : stripSuffixL mdChars "a.md-b.md".data = "a.md-b".data := by decide

/-!
## Data model

`BlogPost` mirrors the TypeScript interface of the same name.  At runtime the
`metadata` field is the whole frontmatter object (the source performs a plain
type cast `data as BlogPostMetadata`, which keeps every frontmatter key,
including `status`), so it is modelled as the full `Frontmatter` record.

The `date` field is built by `data.date || new Date().toISOString().split('T')`;
when the frontmatter date is absent (or an empty string, which is falsy) the
JavaScript value is the two-element *array* produced by `split('T')`, not a
string, so the field is modelled as a sum `String ⊕ List String`.
-/

/-- Frontmatter keys used by the pipeline, each possibly absent. -/
structure Frontmatter where
  title : Option String := none
  description : Option String := none
  date : Option String := none
  author : Option String := none
  tags : Option (List String) := none
  status : Option String := none
deriving DecidableEq

/-- Origin discriminator of a post. -/
inductive SourceKind where
  | srcLocal : SourceKind
  | srcGithub : SourceKind
deriving DecidableEq

/-- Runtime value of the `date` field: a frontmatter string, or the array
produced by splitting the current ISO timestamp at the character T. -/
abbrev DateVal := String ⊕ List String

/-- JavaScript template-literal coercion of a date value: a string stays
itself, an array joins its elements with commas. -/
def dateStr : DateVal → String
  | Sum.inl s => s
  | Sum.inr parts => String.intercalate "," parts

/-- JavaScript `v || d` for a string-or-absent value: absent and the empty
string are falsy. -/
def jsOr (v : Option String) (d : String) : String :=
  match v with
  | some s => if s = "" then d else s
  | none => d

/-- The date expression `data.date || new Date().toISOString().split('T')`,
with `now` standing for the current ISO timestamp. -/
def dateValue (fmDate : Option String) (now : String) : DateVal :=
  match fmDate with
  | some s => if s = "" then Sum.inr ((splitOnCh 'T' now.data).map fun l => ⟨l⟩) else Sum.inl s
  | none => Sum.inr ((splitOnCh 'T' now.data).map fun l => ⟨l⟩)

/-- A post record, mirroring the `BlogPost` interface. -/
structure BlogPost where
  id : String
  slug : String
  title : String
  description : String
  date : DateVal
  content : String
  metadata : Frontmatter
  source : SourceKind
  sourceRepo : Option String := none
deriving DecidableEq

/-- Slug derivation of `scanLocalMarkdown`: delete the first occurrence of
`".md"` from the file name, then normalise. -/
def localSlug (file : String) : String :=
  ⟨slugifyL (replaceFirst mdChars file.data)⟩

/-- The post record pushed by `scanLocalMarkdown` for one file, given the
parsed frontmatter `fm`, the body, and the current ISO timestamp `now`. -/
def mkLocalPost (file : String) (fm : Frontmatter) (body now : String) : BlogPost :=
  { content := body
    date := dateValue fm.date now
    description := jsOr fm.description ""
    id := "post-local-" ++ localSlug file
    metadata := fm
    slug := localSlug file
    source := SourceKind.srcLocal
    sourceRepo := none
    title := jsOr fm.title file }

/-- `scanGitHubMarkdown` base name: strip a trailing `".md"`, split on the
path separator, take the last segment, falling back to the whole path when
that segment is empty (`pathSegments.pop() || filePath`). -/
def rawSlug (filePath : String) : String :=
  let stripped : List Char := stripSuffixL mdChars filePath.data
  let lastSeg : List Char := (splitOnCh '/' stripped).getLastD []
  if lastSeg = [] then filePath else ⟨lastSeg⟩

/-- The post record pushed by `scanGitHubMarkdown` for one fetched file. -/
def mkGithubPost (owner repo filePath : String) (fm : Frontmatter) (body now : String) :
    BlogPost :=
  { content := body
    date := dateValue fm.date now
    description := jsOr fm.description ""
    id := "post-" ++ owner ++ "-" ++ slugify (rawSlug filePath)
    metadata := fm
    slug := owner ++ "-" ++ slugify (rawSlug filePath)
    source := SourceKind.srcGithub
    sourceRepo := some (owner ++ "/" ++ repo)
    title := jsOr fm.title filePath }

/-!
## HTML escaping and page composition
-/

/-- `escapeHtml` from `render/utils.ts`: the five global single-character
replacements, applied in source order (ampersand first). -/
def escapeHtmlL (l : List Char) : List Char :=
  replaceChar apos "&#039;".data
    (replaceChar '"' "&quot;".data
      (replaceChar '>' "&gt;".data
        (replaceChar '<' "&lt;".data
          (replaceChar '&' "&amp;".data l))))

/-- String-level `escapeHtml`. -/
def escapeHtml (s : String) : String :=
  ⟨escapeHtmlL s.data⟩

/-- Markdown conversion with the document-level catch of
`renderMarkdownToHtml`: a conversion failure is replaced by a fixed fallback
paragraph.  The converter itself (the `marked` library) is an external
collaborator, abstracted as a fallible function `conv`. -/
def renderMarkdownToHtml (conv : String → Except String String) (md : String) : String :=
  match conv md with
  | Except.ok h => h
  | Except.error _ => "<p>Error rendering content</p>"

/-- `MARKDOWN_CONTENT_PLACEHOLDER` from the Post component. -/
def markdownContentPlaceholder : String := "__markdownContentPlaceholder__"

/-- `String.prototype.replace(pat, rep)` with plain-string pattern and
replacement: substitute the first occurrence. -/
def replaceFirstWith (pat rep : List Char) : List Char → List Char
  | [] => []
  | c :: rest =>
    if startsL pat (c :: rest) then rep ++ (c :: rest).drop pat.length
    else c :: replaceFirstWith pat rep rest

/-- Constant document text before the title interpolation. -/
def htmlSeg1 : String := "<!DOCTYPE html>\n<html lang=\"en\" class=\"h-full\">\n<head>\n    <meta charset=\"UTF-8\" />\n    <link rel=\"icon\" type=\"image/svg+xml\" href=\"/blog/favicon.svg\" priority=\"low\"/>\n    <meta name=\"viewport\" content=\"width=device-width, initial-scale=1.0\" />\n    <title>"

/-- Constant document text between the title and the description. -/
def htmlSeg2 : String := " | Blog</title>\n    <meta name=\"description\" content=\""

/-- Constant document text between the description and the OG title. -/
def htmlSeg3 : String := "\" />\n    <meta property=\"og:title\" content=\""

/-- Constant document text between the OG title and the OG description. -/
def htmlSeg4 : String := "\" />\n    <meta property=\"og:description\" content=\""

/-- Constant document text between the OG description and the date. -/
def htmlSeg5 : String := "\" />\n    <meta property=\"og:type\" content=\"article\" />\n    <meta property=\"article:published_time\" content=\""

/-- Constant document text between the date and the author. -/
def htmlSeg6 : String := "\" />\n    <meta name=\"author\" content=\""

/-- Constant document text between the author and the keywords line. -/
def htmlSeg7 : String := "\" />\n    "

/-- Opening of the keywords meta tag. -/
def kwSeg1 : String := "<meta name=\"keywords\" content=\""

/-- Closing of the keywords meta tag. -/
def kwSeg2 : String := "\" />"

/-- Constant document text between the keywords line and the body. -/
def htmlSeg8 : String := "\n</head>\n<body class=\"min-h-screen bg-(--color-bg) text-(--color-text)\">\n  "

/-- Constant document text closing the page. -/
def htmlSeg9 : String := "\n</body>\n</html>"

/-- The keywords line: emitted only when the frontmatter has a `tags` array
(the array joined with a comma and a space, then escaped). -/
def keywordsMeta (tags : Option (List String)) : String :=
  match tags with
  | some ts => kwSeg1 ++ escapeHtml (String.intercalate ", " ts) ++ kwSeg2
  | none => ""

/-- The `initialHtml` template literal of `generatePostHTML`, as a function
of the post and of the server-rendered navigation shell (with the markdown
already substituted).  Title, description, OG title/description, author and
keywords pass through `escapeHtml`; the date is interpolated raw. -/
def initialHtml (p : BlogPost) (nav : String) : String :=
  htmlSeg1 ++ escapeHtml p.title ++ htmlSeg2 ++ escapeHtml p.description ++ htmlSeg3 ++
    escapeHtml p.title ++ htmlSeg4 ++ escapeHtml p.description ++ htmlSeg5 ++
    dateStr p.date ++ htmlSeg6 ++ escapeHtml (jsOr p.metadata.author "Unknown") ++
    htmlSeg7 ++ keywordsMeta p.metadata.tags ++ htmlSeg8 ++ nav ++ htmlSeg9

/-- The full page of `generatePostHTML`: render markdown (with the
document-level catch), substitute the placeholder in the rendered shell,
interpolate the template, and inline the generated stylesheet before the
closing head tag.  `shell` abstracts `renderToString(NavigationWrapper ...)`
and `cssOf` abstracts the Tailwind CSS generation. -/
def pageHtml (conv : String → Except String String) (shell : BlogPost → String)
    (cssOf : String → String) (p : BlogPost) : String :=
  let markdownContent := renderMarkdownToHtml conv p.content
  let navFull : String :=
    ⟨replaceFirstWith markdownContentPlaceholder.data markdownContent.data (shell p).data⟩
  let initial := initialHtml p navFull
  ⟨replaceFirstWith "</head>".data ("<style>" ++ cssOf initial ++ "</style>\n</head>").data
    initial.data⟩

/-- One output file of `generatePostHTML`: path `<slug>.html` and contents. -/
def generatePostPage (conv : String → Except String String) (shell : BlogPost → String)
    (cssOf : String → String) (p : BlogPost) : String × String :=
  (p.slug ++ ".html", pageHtml conv shell cssOf p)

/-!
## Blog index generation

`generateBlogIndex` maps every post to a summary via an object spread
`{ ...p, content: '', date: p.date, description: p.description, id: p.id,
slug: p.slug, title: p.title }` — the spread retains *every* field of the
post and only `content` is overwritten — and then sorts by
`new Date(b.date).getTime() - new Date(a.date).getTime()`.
`Array.prototype.sort` is stable, so the sort is modelled as a stable
insertion sort; `k` abstracts `new Date(·).getTime()` applied to the
string coercion of the date value.
-/

/-- The summary record of one index entry: the object spread keeps every
field, `content` is blanked. -/
def summarize (p : BlogPost) : BlogPost :=
  { content := ""
    date := p.date
    description := p.description
    id := p.id
    slug := p.slug
    title := p.title
    metadata := p.metadata
    source := p.source
    sourceRepo := p.sourceRepo }

/-- Sort key of a post: timestamp of the (string-coerced) date value. -/
def dkey (k : String → Int) (p : BlogPost) : Int :=
  k (dateStr p.date)

/-- Stable descending insertion: `p` goes in front of the first element
whose key is not strictly larger, so earlier input elements precede later
ones on equal keys. -/
def insertByDateDesc (k : String → Int) (p : BlogPost) : List BlogPost → List BlogPost
  | [] => [p]
  | q :: rest =>
    if dkey k p < dkey k q then q :: insertByDateDesc k p rest else p :: q :: rest

/-- Stable sort by date descending, modelling the stable
`Array.prototype.sort` with comparator on `getTime()` values. -/
def sortByDateDesc (k : String → Int) : List BlogPost → List BlogPost
  | [] => []
  | p :: rest => insertByDateDesc k p (sortByDateDesc k rest)

/-- The `BlogIndex` interface. -/
structure BlogIndex where
  posts : List BlogPost
  lastUpdated : String
deriving DecidableEq

/-- The sorted summary list of `generateBlogIndex`. -/
def indexPosts (k : String → Int) (posts : List BlogPost) : List BlogPost :=
  sortByDateDesc k (posts.map summarize)

/-- The index document of `generateBlogIndex`, with `now` standing for the
current ISO timestamp. -/
def generateBlogIndex (k : String → Int) (now : String) (posts : List BlogPost) : BlogIndex :=
  { posts := indexPosts k posts, lastUpdated := now }

/-!
## Build driver

`build` deduplicates with `Array.from(new Map(posts.map(p => [p.slug, p])).values())`:
a JavaScript `Map` keyed by slug keeps the position of the first insertion of
each key and overwrites its value on re-insertion, so later posts with the
same slug win while traversal order follows first occurrences.  There is no
status-based filtering anywhere in `build`: every deduplicated post is
rendered and indexed.
-/

/-- One `Map.set` step: overwrite the entry with the same slug in place, or
append a fresh entry at the end. -/
def upsert (p : BlogPost) : List BlogPost → List BlogPost
  | [] => [p]
  | q :: rest => if q.slug = p.slug then p :: rest else q :: upsert p rest

/-- `Array.from(new Map(posts.map(p => [p.slug, p])).values())`. -/
def dedupBySlug (posts : List BlogPost) : List BlogPost :=
  posts.foldl (fun acc p => upsert p acc) []

/-- The post pages written by `build`: one page per deduplicated post. -/
def buildPostPages (conv : String → Except String String) (shell : BlogPost → String)
    (cssOf : String → String) (posts : List BlogPost) : List (String × String) :=
  (dedupBySlug posts).map (generatePostPage conv shell cssOf)

/-- The index document written by `build`. -/
def buildIndex (k : String → Int) (now : String) (posts : List BlogPost) : BlogIndex :=
  generateBlogIndex k now (dedupBySlug posts)

-- Sanity checks of the embedding on concrete inputs.
example : escapeHtml "a<b&c" = "a&lt;b&amp;c" := by decide
example : localSlug "Hello World.md" = "hello-world" := by decide
example : rawSlug "dir/Sub/Name.md" = "Name" := by decide
example : rawSlug ".md" = ".md" := by decide

/-!
## Deduplication lemmas (claim C4)
-/

lemma upsert_filter_ne (p : BlogPost) (s : String) (h : p.slug ≠ s) :
    ∀ l : List BlogPost,
      (upsert p l).filter (fun q => q.slug == s) = l.filter (fun q => q.slug == s) := by
  intro l
  have h1 : (p.slug == s) = false := by simp [h]
  induction l with
  | nil => simp [upsert, List.filter_cons, h1]
  | cons q rest ih =>
    by_cases hq : q.slug = p.slug
    · have h2 : (q.slug == s) = false := by simp [hq, h]
      simp [upsert, if_pos hq, List.filter_cons, h1, h2]
    · simp [upsert, if_neg hq, List.filter_cons, ih]

lemma filter_eq_nil_of_not_mem_slugs (s : String) :
    ∀ l : List BlogPost, s ∉ l.map (fun q => q.slug) →
      l.filter (fun q => q.slug == s) = [] := by
  intro l
  induction l with
  | nil => simp
  | cons q rest ih =>
    intro hmem
    simp only [List.map_cons, List.mem_cons] at hmem
    push_neg at hmem
    have h1 : (q.slug == s) = false := by
      simp only [beq_eq_false_iff_ne, ne_eq]
      exact Ne.symm hmem.1
    simp [List.filter_cons, h1, ih hmem.2]

lemma upsert_filter_eq (p : BlogPost) (s : String) (h : p.slug = s) :
    ∀ l : List BlogPost, (l.map (fun q => q.slug)).Nodup →
      (upsert p l).filter (fun q => q.slug == s) = [p] := by
  intro l
  have hps : (p.slug == s) = true := by simp [h]
  induction l with
  | nil => simp [upsert, List.filter_cons, hps]
  | cons q rest ih =>
    intro hnd
    simp only [List.map_cons, List.nodup_cons] at hnd
    by_cases hq : q.slug = p.slug
    · have hrest : rest.filter (fun q => q.slug == s) = [] := by
        apply filter_eq_nil_of_not_mem_slugs
        rw [← h, ← hq]
        exact hnd.1
      simp [upsert, if_pos hq, List.filter_cons, hps, hrest]
    · have h2 : (q.slug == s) = false := by
        simp only [beq_eq_false_iff_ne, ne_eq]
        rw [← h]
        exact hq
      simp [upsert, if_neg hq, List.filter_cons, h2, ih hnd.2]

lemma mem_slugs_upsert (p : BlogPost) (x : String) :
    ∀ l : List BlogPost, x ∈ (upsert p l).map (fun q => q.slug) →
      x = p.slug ∨ x ∈ l.map (fun q => q.slug) := by
  intro l
  induction l with
  | nil => simp [upsert]
  | cons q rest ih =>
    by_cases hq : q.slug = p.slug
    · simp only [upsert, if_pos hq, List.map_cons, List.mem_cons]
      tauto
    · simp only [upsert, if_neg hq, List.map_cons, List.mem_cons]
      intro hx
      rcases hx with hx | hx
      · tauto
      · rcases ih hx with h1 | h1 <;> tauto

lemma nodup_slugs_upsert (p : BlogPost) :
    ∀ l : List BlogPost, (l.map (fun q => q.slug)).Nodup →
      ((upsert p l).map (fun q => q.slug)).Nodup := by
  intro l
  induction l with
  | nil => simp [upsert]
  | cons q rest ih =>
    intro hnd
    simp only [List.map_cons, List.nodup_cons] at hnd
    by_cases hq : q.slug = p.slug
    · simp only [upsert, if_pos hq, List.map_cons, List.nodup_cons]
      exact ⟨by rw [← hq]; exact hnd.1, hnd.2⟩
    · simp only [upsert, if_neg hq, List.map_cons, List.nodup_cons]
      refine ⟨fun hmem => ?_, ih hnd.2⟩
      rcases mem_slugs_upsert p q.slug rest hmem with h1 | h1
      · exact hq h1
      · exact hnd.1 h1

lemma singleton_filter_getLast (s : String) :
    ∀ l : List BlogPost, (l.map (fun q => q.slug)).Nodup →
      l.filter (fun q => q.slug == s) =
        ((l.filter (fun q => q.slug == s)).getLast?).toList := by
  intro l
  induction l with
  | nil => simp
  | cons q rest ih =>
    intro hnd
    simp only [List.map_cons, List.nodup_cons] at hnd
    by_cases hq : q.slug = s
    · have hrest : rest.filter (fun p => p.slug == s) = [] := by
        apply filter_eq_nil_of_not_mem_slugs
        rw [← hq]
        exact hnd.1
      simp [List.filter_cons, hq, hrest]
    · have h2 : (q.slug == s) = false := by simp [hq]
      simp only [List.filter_cons, h2, if_false, Bool.false_eq_true, if_neg]
      exact ih hnd.2

lemma dedup_fold_filter (s : String) :
    ∀ (l acc : List BlogPost), (acc.map (fun q => q.slug)).Nodup →
      (l.foldl (fun a p => upsert p a) acc).filter (fun q => q.slug == s) =
        (((acc ++ l).filter (fun q => q.slug == s)).getLast?).toList := by
  intro l
  induction l with
  | nil =>
    intro acc hnd
    simpa using singleton_filter_getLast s acc hnd
  | cons p rest ih =>
    intro acc hnd
    have step : (p :: rest).foldl (fun a p => upsert p a) acc =
        rest.foldl (fun a p => upsert p a) (upsert p acc) := by
      simp [List.foldl]
    rw [step, ih (upsert p acc) (nodup_slugs_upsert p acc hnd)]
    congr 1
    by_cases hp : p.slug = s
    · rw [List.filter_append, List.filter_append, upsert_filter_eq p s hp acc hnd]
      have hcons : (p :: rest).filter (fun q => q.slug == s) =
          p :: rest.filter (fun q => q.slug == s) := by
        simp [List.filter_cons, hp]
      rw [hcons]
      have hl : ([p] ++ rest.filter (fun q => q.slug == s)) =
          [] ++ p :: rest.filter (fun q => q.slug == s) := by simp
      rw [hl, List.getLast?_append_cons, List.getLast?_append_cons]
    · rw [List.filter_append, List.filter_append, upsert_filter_ne p s hp acc]
      have hcons : (p :: rest).filter (fun q => q.slug == s) =
          rest.filter (fun q => q.slug == s) := by
        simp [List.filter_cons, hp]
      rw [hcons]

lemma nodup_slugs_dedup_fold :
    ∀ (l acc : List BlogPost), (acc.map (fun q => q.slug)).Nodup →
      ((l.foldl (fun a p => upsert p a) acc).map (fun q => q.slug)).Nodup := by
  intro l
  induction l with
  | nil => intro acc hnd; simpa using hnd
  | cons p rest ih =>
    intro acc hnd
    have step : (p :: rest).foldl (fun a p => upsert p a) acc =
        rest.foldl (fun a p => upsert p a) (upsert p acc) := by
      simp [List.foldl]
    rw [step]
    exact ih (upsert p acc) (nodup_slugs_upsert p acc hnd)

/-- **C4.** In the deduplicated post list, each slug occurs exactly once
(the slug projection has no duplicates), and for every slug the single
retained post is exactly the last post carrying that slug in scan order
(the filtered input's last element). -/
theorem dedup_last_wins (posts : List BlogPost) (s : String) :
    ((dedupBySlug posts).map (fun q => q.slug)).Nodup ∧
      (dedupBySlug posts).filter (fun q => q.slug == s) =
        (((posts.filter (fun q => q.slug == s)).getLast?).toList) := by
  constructor
  · exact nodup_slugs_dedup_fold posts [] (by simp)
  · have h := dedup_fold_filter s posts [] (by simp)
    simpa [dedupBySlug] using h

/-!
## Sort permutation lemmas (shared by C1 and C5)
-/

lemma insertByDateDesc_perm (k : String → Int) (p : BlogPost) :
    ∀ l : List BlogPost, (insertByDateDesc k p l).Perm (p :: l) := by
  intro l
  induction l with
  | nil => simp [insertByDateDesc]
  | cons q rest ih =>
    by_cases hlt : dkey k p < dkey k q
    · simp only [insertByDateDesc, if_pos hlt]
      exact (List.Perm.cons q ih).trans (List.Perm.swap p q rest)
    · simp [insertByDateDesc, if_neg hlt]

lemma sortByDateDesc_perm (k : String → Int) :
    ∀ l : List BlogPost, (sortByDateDesc k l).Perm l := by
  intro l
  induction l with
  | nil => simp [sortByDateDesc]
  | cons p rest ih =>
    exact ((insertByDateDesc_perm k p (sortByDateDesc k rest)).trans (List.Perm.cons p ih))

lemma buildPostPages_fst (conv : String → Except String String) (shell : BlogPost → String)
    (cssOf : String → String) (posts : List BlogPost) :
    (buildPostPages conv shell cssOf posts).map Prod.fst =
      (dedupBySlug posts).map (fun p => p.slug ++ ".html") := by
  simp [buildPostPages, generatePostPage, List.map_map, Function.comp]

/-!
## Claim C1: status filtering
-/

/-- A concrete local post whose frontmatter status is `"draft"`. -/
def draftPostC1 : BlogPost :=
  mkLocalPost "my-draft.md"
    { status := some "draft", title := some "A draft", date := some "2025-01-01" }
    "draft body" "2026-10-12T06:00:00.000Z"

/-- **C1 counterexample.** A post whose status is `"draft"` still produces an
output page and an index entry in the (only) build mode: the build has no
status filtering, so non-published posts are not excluded. -/
theorem draft_post_is_rendered :
    ((buildPostPages (fun s => Except.ok s) (fun _ => "") (fun _ => "") [draftPostC1]).map
        Prod.fst) = ["my-draft.html"] ∧
      draftPostC1.metadata.status = some "draft" ∧
      (buildIndex (fun _ => 0) "ts" [draftPostC1]).posts.length = 1 := by
  refine ⟨?_, by decide, by decide⟩
  rw [buildPostPages_fst]
  decide

/-- **C1 (amended).** The build applies no status-based filtering: the set of
generated pages is exactly one page per deduplicated post, whatever the posts'
statuses, and the index holds a summary of every deduplicated post. -/
theorem build_includes_every_status (conv : String → Except String String)
    (shell : BlogPost → String) (cssOf : String → String) (k : String → Int)
    (now : String) (posts : List BlogPost) :
    (buildPostPages conv shell cssOf posts).map Prod.fst =
      (dedupBySlug posts).map (fun p => p.slug ++ ".html") ∧
      ((buildIndex k now posts).posts).Perm ((dedupBySlug posts).map summarize) := by
  exact ⟨buildPostPages_fst conv shell cssOf posts,
    sortByDateDesc_perm k ((dedupBySlug posts).map summarize)⟩

/-!
## Claim C2: conversion failure handling
-/

/-- A concrete post used to exercise the conversion-failure path. -/
def failPostC2 : BlogPost :=
  mkLocalPost "hello.md" { title := some "Hello" } "~~~broken" "2026-10-12T06:00:00.000Z"

/-- **C2 counterexample.** With a converter that throws on every input, the
post is *not* skipped: its page is still produced (present in the output
set), with the fallback paragraph substituted for the body. -/
theorem failed_conversion_still_outputs :
    ((buildPostPages (fun _ => Except.error "boom") (fun _ => "") (fun _ => "")
        [failPostC2]).map Prod.fst) = ["hello.html"] ∧
      renderMarkdownToHtml (fun _ => Except.error "boom") failPostC2.content =
        "<p>Error rendering content</p>" := by
  refine ⟨?_, by decide⟩
  rw [buildPostPages_fst]
  decide

/-- **C2 (amended).** A conversion exception is caught at the document level
and replaced by the fixed fallback paragraph; the post still produces its
output page, and every deduplicated post produces exactly one page whether or
not its conversion fails. -/
theorem conversion_failure_fallback (conv : String → Except String String)
    (shell : BlogPost → String) (cssOf : String → String) (posts : List BlogPost)
    (md e : String) (herr : conv md = Except.error e) :
    renderMarkdownToHtml conv md = "<p>Error rendering content</p>" ∧
      (buildPostPages conv shell cssOf posts).map Prod.fst =
        (dedupBySlug posts).map (fun p => p.slug ++ ".html") := by
  refine ⟨?_, buildPostPages_fst conv shell cssOf posts⟩
  simp [renderMarkdownToHtml, herr]

/-- Witness for the amended C2 theorem at a concrete failing converter. -/
theorem conversion_failure_fallback_witness :
    renderMarkdownToHtml (fun _ => Except.error "boom") "anything" =
        "<p>Error rendering content</p>" ∧
      (buildPostPages (fun _ => Except.error "boom") (fun _ => "") (fun _ => "")
          [failPostC2]).map Prod.fst =
        (dedupBySlug [failPostC2]).map (fun p => p.slug ++ ".html") :=
  conversion_failure_fallback (fun _ => Except.error "boom") (fun _ => "") (fun _ => "")
    [failPostC2] "anything" "boom" rfl

/-!
## Claim C6: frontmatter defaults
-/

/-- **C6.** Defaults of `scanLocalMarkdown` for missing frontmatter: the
title falls back to the file name and the description to the empty string as
documented, but the date falls back to `new Date().toISOString().split('T')`,
which is the two-element *array* of the timestamp's date part and time part —
not the current-timestamp string (it is not a string at all), contradicting
the declared `date: string` of the `BlogPost` interface. -/
theorem local_scan_defaults (file body now : String) :
    (mkLocalPost file {} body now).title = file ∧
      (mkLocalPost file {} body now).description = "" ∧
      (mkLocalPost file {} body now).date =
        Sum.inr ((splitOnCh 'T' now.data).map fun l => (⟨l⟩ : String)) ∧
      (∀ s : String, (mkLocalPost file {} body now).date ≠ Sum.inl s) ∧
      (mkLocalPost "hello.md" {} "" "2026-10-12T06:00:00.000Z").date =
        Sum.inr ["2026-10-12", "06:00:00.000Z"] := by
  refine ⟨rfl, rfl, rfl, ?_, by decide⟩
  intro s
  simp [mkLocalPost, dateValue]

/-!
## Claim C7: index summary records
-/

/-- A concrete remote post with rich metadata. -/
def richPostC7 : BlogPost :=
  mkGithubPost "octo" "repo" "notes/topic.md"
    { title := some "Topic", date := some "2025-05-05", author := some "Octo",
      tags := some ["a", "b"] }
    "body text" "2026-10-12T06:00:00.000Z"

/-- **C7 counterexample.** An index entry is *not* trimmed to
id/slug/title/description/date: the object spread keeps the full metadata
object, the source discriminator and the source repository. -/
theorem index_entry_not_trimmed :
    ((indexPosts (fun _ => 0) [richPostC7]).map fun q => q.sourceRepo) =
        [some "octo/repo"] ∧
      ((indexPosts (fun _ => 0) [richPostC7]).map fun q => q.source) =
        [SourceKind.srcGithub] ∧
      ((indexPosts (fun _ => 0) [richPostC7]).map fun q => q.metadata.tags) =
        [some ["a", "b"]] := by
  refine ⟨by decide, by decide, by decide⟩

/-- **C7 (amended).** Every index entry has its content field blanked and
every other field of the post (id, slug, title, description, date, metadata,
source, sourceRepo) retained unchanged. -/
theorem index_entry_blanks_content_only (p : BlogPost) :
    (summarize p).content = "" ∧ (summarize p).id = p.id ∧
      (summarize p).slug = p.slug ∧ (summarize p).title = p.title ∧
      (summarize p).description = p.description ∧ (summarize p).date = p.date ∧
      (summarize p).metadata = p.metadata ∧ (summarize p).source = p.source ∧
      (summarize p).sourceRepo = p.sourceRepo := by
  exact ⟨rfl, rfl, rfl, rfl, rfl, rfl, rfl, rfl, rfl⟩

/-!
## Claim C5: index ordering
-/

lemma insertByDateDesc_head (k : String → Int) (p : BlogPost) :
    ∀ l : List BlogPost, (insertByDateDesc k p l).head? = some p ∨
      (insertByDateDesc k p l).head? = l.head? := by
  intro l
  cases l with
  | nil => left; rfl
  | cons q rest =>
    by_cases hlt : dkey k p < dkey k q
    · right; simp [insertByDateDesc, if_pos hlt]
    · left; simp [insertByDateDesc, if_neg hlt]

lemma insertByDateDesc_sorted (k : String → Int) (p : BlogPost) :
    ∀ l : List BlogPost, List.Chain' (fun a b => dkey k b ≤ dkey k a) l →
      List.Chain' (fun a b => dkey k b ≤ dkey k a) (insertByDateDesc k p l) := by
  intro l
  induction l with
  | nil => intro _; simp [insertByDateDesc]
  | cons q rest ih =>
    intro hch
    rw [List.chain'_cons'] at hch
    by_cases hlt : dkey k p < dkey k q
    · simp only [insertByDateDesc, if_pos hlt]
      rw [List.chain'_cons']
      refine ⟨?_, ih hch.2⟩
      intro y hy
      rcases insertByDateDesc_head k p rest with hhd | hhd
      · rw [hhd] at hy
        simp only [Option.mem_def, Option.some_inj] at hy
        subst hy
        exact le_of_lt hlt
      · rw [hhd] at hy
        exact hch.1 y hy
    · simp only [insertByDateDesc, if_neg hlt]
      rw [List.chain'_cons']
      refine ⟨?_, by rw [List.chain'_cons']; exact hch⟩
      intro y hy
      simp only [List.head?_cons, Option.mem_def, Option.some_inj] at hy
      subst hy
      exact le_of_not_lt hlt

lemma sortByDateDesc_sorted (k : String → Int) :
    ∀ l : List BlogPost, List.Chain' (fun a b => dkey k b ≤ dkey k a) (sortByDateDesc k l) := by
  intro l
  induction l with
  | nil => simp [sortByDateDesc]
  | cons p rest ih => exact insertByDateDesc_sorted k p (sortByDateDesc k rest) ih

lemma insertByDateDesc_filter_key (k : String → Int) (p : BlogPost) (v : Int) :
    ∀ l : List BlogPost,
      (insertByDateDesc k p l).filter (fun q => dkey k q == v) =
        if dkey k p = v then p :: l.filter (fun q => dkey k q == v)
        else l.filter (fun q => dkey k q == v) := by
  intro l
  induction l with
  | nil =>
    by_cases hv : dkey k p = v
    · simp [insertByDateDesc, List.filter_cons, hv]
    · simp [insertByDateDesc, List.filter_cons, hv]
  | cons q rest ih =>
    by_cases hlt : dkey k p < dkey k q
    · simp only [insertByDateDesc, if_pos hlt]
      by_cases hv : dkey k p = v
      · have hq : (dkey k q == v) = false := by
          simp only [beq_eq_false_iff_ne, ne_eq]
          intro hqv
          rw [← hv] at hqv
          exact absurd (hqv ▸ hlt) (lt_irrefl _)
        simp [List.filter_cons, hq, ih, hv]
      · simp [List.filter_cons, ih, hv]
    · simp only [insertByDateDesc, if_neg hlt]
      by_cases hv : dkey k p = v
      · simp [List.filter_cons, hv]
      · simp [List.filter_cons, hv]

lemma sortByDateDesc_filter_key (k : String → Int) (v : Int) :
    ∀ l : List BlogPost,
      (sortByDateDesc k l).filter (fun q => dkey k q == v) =
        l.filter (fun q => dkey k q == v) := by
  intro l
  induction l with
  | nil => rfl
  | cons p rest ih =>
    simp only [sortByDateDesc, insertByDateDesc_filter_key, ih]
    by_cases hv : dkey k p = v
    · simp [List.filter_cons, hv]
    · simp [List.filter_cons, hv]

/-- Concrete post dated 2025-01-01. -/
def postJanC5 : BlogPost :=
  mkLocalPost "jan.md" { date := some "2025-01-01", title := some "Jan" } "a" "T"

/-- Concrete post dated 2025-02-01. -/
def postFebC5 : BlogPost :=
  mkLocalPost "feb.md" { date := some "2025-02-01", title := some "Feb" } "b" "T"

/-- Concrete post dated 2025-03-01. -/
def postMarC5 : BlogPost :=
  mkLocalPost "mar.md" { date := some "2025-03-01", title := some "Mar" } "c" "T"

/-- **C5.** The generated index is sorted by date key descending (adjacent
entries non-increasing), ties are broken by input order (the subsequence of
entries with any fixed key equals the input subsequence with that key), and
for posts dated 2025-01-01, 2025-03-01, 2025-02-01 (with the date keys
ordered as `new Date(...).getTime()` orders them) the index lists
2025-03-01, 2025-02-01, 2025-01-01. -/
theorem blog_index_ordering (k : String → Int) (posts : List BlogPost) (v : Int)
    (h12 : k "2025-01-01" < k "2025-02-01") (h23 : k "2025-02-01" < k "2025-03-01") :
    List.Chain' (fun a b => dkey k b ≤ dkey k a) (indexPosts k posts) ∧
      (indexPosts k posts).filter (fun q => dkey k q == v) =
        (posts.map summarize).filter (fun q => dkey k q == v) ∧
      ((indexPosts k [postJanC5, postMarC5, postFebC5]).map fun q => q.date) =
        [Sum.inl "2025-03-01", Sum.inl "2025-02-01", Sum.inl "2025-01-01"] := by
  refine ⟨sortByDateDesc_sorted k (posts.map summarize),
    sortByDateDesc_filter_key k v (posts.map summarize), ?_⟩
  have hjan : dkey k (summarize postJanC5) = k "2025-01-01" := by
    simp [dkey, dateStr, summarize, postJanC5, mkLocalPost, dateValue]
  have hfeb : dkey k (summarize postFebC5) = k "2025-02-01" := by
    simp [dkey, dateStr, summarize, postFebC5, mkLocalPost, dateValue]
  have hmar : dkey k (summarize postMarC5) = k "2025-03-01" := by
    simp [dkey, dateStr, summarize, postMarC5, mkLocalPost, dateValue]
  have hmf : ¬ dkey k (summarize postMarC5) < dkey k (summarize postFebC5) := by
    rw [hmar, hfeb]
    exact not_lt_of_gt h23
  have hjm : dkey k (summarize postJanC5) < dkey k (summarize postMarC5) := by
    rw [hjan, hmar]
    exact h12.trans h23
  have hjf : dkey k (summarize postJanC5) < dkey k (summarize postFebC5) := by
    rw [hjan, hfeb]
    exact h12
  simp only [indexPosts, List.map_cons, List.map_nil, sortByDateDesc, insertByDateDesc,
    if_neg hmf, if_pos hjm, if_pos hjf]
  simp [summarize, postJanC5, postFebC5, postMarC5, mkLocalPost, dateValue]

/-- Witness for the C5 theorem with the actual epoch-millisecond values of
the three dates. -/
theorem blog_index_ordering_witness :
    List.Chain' (fun a b =>
        dkey (fun s => if s = "2025-03-01" then 1740787200000
          else if s = "2025-02-01" then 1738368000000
          else if s = "2025-01-01" then 1735689600000 else 0) b ≤
        dkey (fun s => if s = "2025-03-01" then 1740787200000
          else if s = "2025-02-01" then 1738368000000
          else if s = "2025-01-01" then 1735689600000 else 0) a)
      (indexPosts (fun s => if s = "2025-03-01" then 1740787200000
          else if s = "2025-02-01" then 1738368000000
          else if s = "2025-01-01" then 1735689600000 else 0) []) ∧
      (indexPosts (fun s => if s = "2025-03-01" then 1740787200000
          else if s = "2025-02-01" then 1738368000000
          else if s = "2025-01-01" then 1735689600000 else 0) []).filter
          (fun q => dkey (fun s => if s = "2025-03-01" then 1740787200000
            else if s = "2025-02-01" then 1738368000000
            else if s = "2025-01-01" then 1735689600000 else 0) q == 0) =
        (([] : List BlogPost).map summarize).filter
          (fun q => dkey (fun s => if s = "2025-03-01" then 1740787200000
            else if s = "2025-02-01" then 1738368000000
            else if s = "2025-01-01" then 1735689600000 else 0) q == 0) ∧
      ((indexPosts (fun s => if s = "2025-03-01" then 1740787200000
          else if s = "2025-02-01" then 1738368000000
          else if s = "2025-01-01" then 1735689600000 else 0)
          [postJanC5, postMarC5, postFebC5]).map fun q => q.date) =
        [Sum.inl "2025-03-01", Sum.inl "2025-02-01", Sum.inl "2025-01-01"] :=
  blog_index_ordering
    (fun s => if s = "2025-03-01" then 1740787200000
      else if s = "2025-02-01" then 1738368000000
      else if s = "2025-01-01" then 1735689600000 else 0)
    [] 0 (by decide) (by decide)

/-!
## Character-level lemmas for slug normalisation (claims C8, C9, C10)
-/

lemma char_toNat_ofNat (n : Nat) (h : n < 55296) : (Char.ofNat n).toNat = n := by
  have hv : n.isValidChar := Or.inl h
  rw [Char.ofNat, dif_pos hv]
  rfl

lemma asciiLower_eq_self (c : Char) (h : ¬(65 ≤ c.toNat ∧ c.toNat ≤ 90)) :
    asciiLower c = c := by
  rw [asciiLower, if_neg h]

lemma asciiLower_toNat_of_upper (c : Char) (h : 65 ≤ c.toNat ∧ c.toNat ≤ 90) :
    (asciiLower c).toNat = c.toNat + 32 := by
  rw [asciiLower, if_pos h]
  exact char_toNat_ofNat (c.toNat + 32) (by omega)

lemma asciiLower_not_upper (c : Char) :
    ¬(65 ≤ (asciiLower c).toNat ∧ (asciiLower c).toNat ≤ 90) := by
  by_cases h : 65 ≤ c.toNat ∧ c.toNat ≤ 90
  · rw [asciiLower_toNat_of_upper c h]
    omega
  · rw [asciiLower_eq_self c h]
    exact h

lemma isWordChar_asciiLower (c : Char) : isWordChar (asciiLower c) = isWordChar c := by
  by_cases h : 65 ≤ c.toNat ∧ c.toNat ≤ 90
  · have h1 : (asciiLower c).toNat = c.toNat + 32 := asciiLower_toNat_of_upper c h
    simp only [isWordChar, h1, decide_eq_decide]
    omega
  · rw [asciiLower_eq_self c h]

lemma hyphen_not_word : isWordChar '-' = false := by decide

lemma mem_collapseHyphens (c : Char) :
    ∀ l : List Char, c ∈ collapseHyphens l → c ∈ l := by
  intro l
  induction l with
  | nil => simp [collapseHyphens]
  | cons d rest ih =>
    cases rest with
    | nil => simp [collapseHyphens]
    | cons e rs =>
      by_cases hde : d = '-' ∧ e = '-'
      · simp only [collapseHyphens, if_pos hde]
        intro hmem
        exact List.mem_cons_of_mem d (ih hmem)
      · simp only [collapseHyphens, if_neg hde]
        intro hmem
        rcases List.mem_cons.1 hmem with h1 | h1
        · exact h1 ▸ List.mem_cons_self d _
        · exact List.mem_cons_of_mem d (ih h1)

lemma collapseHyphens_cons :
    ∀ (l : List Char) (d : Char), ∃ t, collapseHyphens (d :: l) = d :: t := by
  intro l
  induction l with
  | nil => intro d; exact ⟨[], rfl⟩
  | cons e rs ih =>
    intro d
    by_cases hde : d = '-' ∧ e = '-'
    · obtain ⟨t, ht⟩ := ih e
      refine ⟨t, ?_⟩
      rw [collapseHyphens, if_pos hde, ht, hde.1, hde.2]
    · exact ⟨collapseHyphens (e :: rs), by rw [collapseHyphens, if_neg hde]⟩

lemma collapseHyphens_chain :
    ∀ l : List Char,
      List.Chain' (fun a b => ¬(a = '-' ∧ b = '-')) (collapseHyphens l) := by
  intro l
  induction l with
  | nil => simp [collapseHyphens]
  | cons d rest ih =>
    cases rest with
    | nil => simp [collapseHyphens]
    | cons e rs =>
      by_cases hde : d = '-' ∧ e = '-'
      · rw [collapseHyphens, if_pos hde]
        exact ih
      · rw [collapseHyphens, if_neg hde]
        obtain ⟨t, ht⟩ := collapseHyphens_cons rs e
        rw [ht]
        rw [ht] at ih
        exact List.Chain'.cons hde ih

lemma collapseHyphens_eq_self :
    ∀ l : List Char, List.Chain' (fun a b => ¬(a = '-' ∧ b = '-')) l →
      collapseHyphens l = l := by
  intro l
  induction l with
  | nil => intro _; rfl
  | cons d rest ih =>
    cases rest with
    | nil => intro _; rfl
    | cons e rs =>
      intro hch
      rcases List.chain'_cons.1 hch with ⟨hde, htail⟩
      rw [collapseHyphens, if_neg hde, ih htail]

lemma map_id_of_mem {f : Char → Char} :
    ∀ l : List Char, (∀ c ∈ l, f c = c) → l.map f = l := by
  intro l
  induction l with
  | nil => intro _; rfl
  | cons c rest ih =>
    intro h
    simp only [List.map_cons]
    rw [h c (List.mem_cons_self c rest), ih fun x hx => h x (List.mem_cons_of_mem c hx)]

lemma mem_slugifyL_allowed (c : Char) (l : List Char) (h : c ∈ slugifyL l) :
    (isWordChar c = true ∨ c = '-') ∧ ¬(65 ≤ c.toNat ∧ c.toNat ≤ 90) := by
  have h1 : c ∈ replaceNonWord (l.map asciiLower) := mem_collapseHyphens c _ h
  rw [replaceNonWord] at h1
  rcases List.mem_map.1 h1 with ⟨x, hx, hcx⟩
  rcases List.mem_map.1 hx with ⟨y, _, hxy⟩
  by_cases hw : isWordChar x || x = '-'
  · rw [if_pos hw] at hcx
    subst hcx
    constructor
    · rw [Bool.or_eq_true] at hw
      rcases hw with h2 | h2
      · exact Or.inl h2
      · exact Or.inr (by simpa using h2)
    · rw [← hxy]
      exact asciiLower_not_upper y
  · rw [if_neg hw] at hcx
    subst hcx
    exact ⟨Or.inr rfl, by decide⟩

/-- **C8.** Slug derivation is deterministic (it is a function) and
idempotent: applying the shared normalisation chain twice equals applying it
once, for every string. -/
theorem slugify_idempotent (s : String) : slugify (slugify s) = slugify s := by
  have key : ∀ l : List Char, slugifyL (slugifyL l) = slugifyL l := by
    intro l
    have hlow : (slugifyL l).map asciiLower = slugifyL l := by
      apply map_id_of_mem
      intro c hc
      exact asciiLower_eq_self c (mem_slugifyL_allowed c l hc).2
    have hrep : replaceNonWord (slugifyL l) = slugifyL l := by
      apply map_id_of_mem
      intro c hc
      rcases (mem_slugifyL_allowed c l hc).1 with h1 | h1
      · rw [if_pos (by simp [h1])]
      · rw [if_pos (by simp [h1])]
    have hcol : collapseHyphens (slugifyL l) = slugifyL l :=
      collapseHyphens_eq_self _ (collapseHyphens_chain _)
    calc slugifyL (slugifyL l)
        = collapseHyphens (replaceNonWord ((slugifyL l).map asciiLower)) := rfl
      _ = collapseHyphens (replaceNonWord (slugifyL l)) := by rw [hlow]
      _ = collapseHyphens (slugifyL l) := by rw [hrep]
      _ = slugifyL l := hcol
  show (⟨slugifyL (slugify s).data⟩ : String) = ⟨slugifyL s.data⟩
  have hdata : (slugify s).data = slugifyL s.data := rfl
  rw [hdata, key]

/-!
## Occurrence and word-count lemmas (claims C9, C10)
-/

lemma string_ext_of_data {a b : String} (h : a.data = b.data) : a = b := by
  cases a
  cases b
  congr 1

lemma startsL_iff (pat : List Char) :
    ∀ l : List Char, startsL pat l = true ↔ ∃ t, l = pat ++ t := by
  induction pat with
  | nil => intro l; simp [startsL]
  | cons p ps ih =>
    intro l
    cases l with
    | nil => simp [startsL]
    | cons c cs =>
      simp only [startsL, Bool.and_eq_true, beq_iff_eq]
      constructor
      · rintro ⟨hpc, hst⟩
        obtain ⟨t, ht⟩ := (ih cs).1 hst
        exact ⟨t, by rw [List.cons_append, ← hpc, ht]⟩
      · rintro ⟨t, ht⟩
        rw [List.cons_append] at ht
        injection ht with h1 h2
        exact ⟨h1.symm, (ih cs).2 ⟨t, h2⟩⟩

lemma startsL_self_append (pat t : List Char) : startsL pat (pat ++ t) = true :=
  (startsL_iff pat (pat ++ t)).2 ⟨t, rfl⟩

lemma endsL_append (pat A : List Char) : endsL pat (A ++ pat) = true := by
  rw [endsL, List.reverse_append]
  exact startsL_self_append pat.reverse A.reverse

lemma stripSuffixL_append (pat A : List Char) : stripSuffixL pat (A ++ pat) = A := by
  rw [stripSuffixL, if_pos (endsL_append pat A), List.length_append,
    Nat.add_sub_cancel, List.take_left]

lemma occursL_append_self (pat : List Char) :
    ∀ A : List Char, occursL pat (A ++ pat) = true := by
  intro A
  induction A with
  | nil =>
    cases hp : pat with
    | nil => simp [occursL, startsL]
    | cons p ps =>
      have hst := startsL_self_append (p :: ps) []
      rw [List.append_nil] at hst
      simp [occursL, ← hp, hp ▸ hst]
  | cons c A' ih =>
    simp [occursL, ih]

lemma replaceFirst_decomp (pat : List Char) :
    ∀ l : List Char, occursL pat l = true →
      ∃ A B, l = A ++ pat ++ B ∧ replaceFirst pat l = A ++ B := by
  intro l
  induction l with
  | nil =>
    intro h
    simp only [occursL] at h
    obtain ⟨t, ht⟩ := (startsL_iff pat []).1 h
    have hp : pat = [] := by
      cases pat with
      | nil => rfl
      | cons p ps => simp at ht
    refine ⟨[], [], by simp [hp], ?_⟩
    simp [replaceFirst, hp]
  | cons c rest ih =>
    intro h
    by_cases hst : startsL pat (c :: rest) = true
    · obtain ⟨t, ht⟩ := (startsL_iff pat (c :: rest)).1 hst
      refine ⟨[], t, by simpa using ht, ?_⟩
      rw [replaceFirst, if_pos hst, ht, List.drop_left]
      simp
    · have hocc : occursL pat rest = true := by
        simp only [occursL, Bool.or_eq_true] at h
        rcases h with h1 | h1
        · exact absurd h1 hst
        · exact h1
      obtain ⟨A, B, hAB, hrep⟩ := ih hocc
      refine ⟨c :: A, B, by simp [hAB], ?_⟩
      rw [replaceFirst, if_neg (by simpa using hst), hrep]
      rfl

lemma wcount_append (a b : List Char) : wcount (a ++ b) = wcount a + wcount b := by
  simp [wcount, List.countP_append]

lemma wcount_md : wcount mdChars = 2 := by decide

lemma wcount_map_asciiLower (l : List Char) : wcount (l.map asciiLower) = wcount l := by
  rw [wcount, wcount, List.countP_map]
  apply List.countP_congr
  intro c _
  simp [Function.comp, isWordChar_asciiLower c]

lemma wcount_replaceNonWord (l : List Char) : wcount (replaceNonWord l) = wcount l := by
  rw [wcount, wcount, replaceNonWord, List.countP_map]
  apply List.countP_congr
  intro c _
  simp only [Function.comp]
  by_cases h : (isWordChar c || decide (c = '-')) = true
  · simp [h]
  · rw [Bool.not_eq_true, Bool.or_eq_false_iff] at h
    simp [h.1, h.2, hyphen_not_word]

lemma wcount_collapseHyphens : ∀ l : List Char, wcount (collapseHyphens l) = wcount l := by
  intro l
  induction l with
  | nil => rfl
  | cons d rest ih =>
    cases rest with
    | nil => rfl
    | cons e rs =>
      by_cases hde : d = '-' ∧ e = '-'
      · rw [collapseHyphens, if_pos hde, ih]
        have hd : isWordChar d = false := hde.1 ▸ hyphen_not_word
        simp [wcount, List.countP_cons, hd]
      · rw [collapseHyphens, if_neg hde]
        simp only [wcount, List.countP_cons] at ih ⊢
        rw [ih]

lemma wcount_slugifyL (l : List Char) : wcount (slugifyL l) = wcount l := by
  rw [slugifyL, wcount_collapseHyphens, wcount_replaceNonWord, wcount_map_asciiLower]

lemma wcount_replaceFirst_md (l : List Char) (h : occursL mdChars l = true) :
    wcount (replaceFirst mdChars l) + 2 = wcount l := by
  obtain ⟨A, B, hAB, hrep⟩ := replaceFirst_decomp mdChars l h
  rw [hrep, hAB, wcount_append, wcount_append, wcount_append, wcount_md]
  ring

lemma splitOnCh_no_sep (sep : Char) :
    ∀ l : List Char, sep ∉ l → splitOnCh sep l = [l] := by
  intro l
  induction l with
  | nil => intro _; rfl
  | cons c rest ih =>
    intro h
    have hc : ¬ c = sep := by
      intro hh
      exact h (by rw [hh]; exact List.mem_cons_self sep rest)
    have hrest : sep ∉ rest := fun hh => h (List.mem_cons_of_mem c hh)
    simp [splitOnCh, ih hrest, hc]

lemma rawSlug_data (f : String) (stem : List Char) (hsplit : f.data = stem ++ mdChars)
    (hNS : '/' ∉ f.data) (hne : stem ≠ []) : (rawSlug f).data = stem := by
  have hstrip : stripSuffixL mdChars f.data = stem := by
    rw [hsplit]
    exact stripSuffixL_append mdChars stem
  have hNSstem : '/' ∉ stem := by
    intro h
    exact hNS (by rw [hsplit]; exact List.mem_append_left _ h)
  simp only [rawSlug]
  rw [hstrip, splitOnCh_no_sep '/' stem hNSstem]
  simp [List.getLastD, hne]

/-- A concrete frontmatter used only to instantiate witnesses. -/
def emptyFm : Frontmatter := {}

/-- **C9.** A remote post's slug is `owner-s` and its id `post-owner-s`,
where `s` normalises the base name; and a local post and a remote post built
from the same `.md` file name always receive distinct slugs (given the
code's guard that the owner is nonempty, and the claim's proviso that the
file name does not begin with the owner prefix), so deduplication cannot
collapse them. -/
theorem github_local_slugs_distinct (owner repo f : String) (fm fm2 : Frontmatter)
    (body body2 now now2 : String) (stem : List Char)
    (hOwn : owner ≠ "") (hsplit : f.data = stem ++ mdChars)
    (hNS : '/' ∉ f.data) (_hPre : startsL owner.data f.data = false) :
    (mkGithubPost owner repo f fm body now).slug = owner ++ "-" ++ slugify (rawSlug f) ∧
      (mkGithubPost owner repo f fm body now).id =
        "post-" ++ owner ++ "-" ++ slugify (rawSlug f) ∧
      (mkLocalPost f fm2 body2 now2).slug ≠ (mkGithubPost owner repo f fm body now).slug := by
  refine ⟨rfl, rfl, ?_⟩
  intro hcol
  have h1 : (localSlug f).data = (owner ++ "-" ++ slugify (rawSlug f)).data :=
    congrArg String.data hcol
  rw [String.data_append, String.data_append, List.append_assoc] at h1
  have hdata : slugifyL (replaceFirst mdChars f.data) =
      owner.data ++ '-' :: slugifyL (rawSlug f).data := h1
  have hOwnData : owner.data ≠ [] := by
    intro hnil
    exact hOwn (string_ext_of_data (by rw [hnil]))
  by_cases hstem : stem = []
  · subst hstem
    simp only [List.nil_append] at hsplit
    rw [hsplit] at hdata
    have hrf : replaceFirst mdChars mdChars = [] := by decide
    rw [hrf] at hdata
    cases hO : owner.data with
    | nil => exact hOwnData hO
    | cons a t =>
      rw [hO] at hdata
      simp [slugifyL, replaceNonWord, collapseHyphens] at hdata
  · have hraw : (rawSlug f).data = stem := rawSlug_data f stem hsplit hNS hstem
    rw [hraw] at hdata
    have hocc : occursL mdChars f.data = true := by
      rw [hsplit]
      exact occursL_append_self mdChars stem
    have hwf : wcount (replaceFirst mdChars f.data) + 2 = wcount f.data :=
      wcount_replaceFirst_md f.data hocc
    have hwstem : wcount stem + 2 = wcount f.data := by
      rw [hsplit, wcount_append, wcount_md]
    have hweq := congrArg wcount hdata
    rw [wcount_slugifyL, wcount_append] at hweq
    have hcons : wcount ('-' :: slugifyL stem) = wcount stem := by
      have h2 : wcount ('-' :: slugifyL stem) = wcount (slugifyL stem) := by
        simp [wcount, List.countP_cons, hyphen_not_word]
      rw [h2, wcount_slugifyL]
    rw [hcons] at hweq
    have hwzero : wcount owner.data = 0 := by omega
    have hnw : ∀ c ∈ owner.data, isWordChar c = false := by
      intro c hc
      have hx := List.countP_eq_zero.1 hwzero c hc
      simpa using hx
    have hchain : List.Chain' (fun a b => ¬(a = '-' ∧ b = '-'))
        (slugifyL (replaceFirst mdChars f.data)) := collapseHyphens_chain _
    cases hO : owner.data with
    | nil => exact hOwnData hO
    | cons c0 t =>
      rw [hO] at hdata
      have hc0 : c0 = '-' := by
        have hc0mem : c0 ∈ slugifyL (replaceFirst mdChars f.data) := by
          rw [hdata]
          simp
        rcases (mem_slugifyL_allowed c0 _ hc0mem).1 with hw | hh
        · have hfw := hnw c0 (by rw [hO]; exact List.mem_cons_self _ _)
          rw [hw] at hfw
          cases hfw
        · exact hh
      cases t with
      | nil =>
        rw [hdata] at hchain
        simp only [List.cons_append, List.nil_append] at hchain
        rw [hc0] at hchain
        rcases List.chain'_cons.1 hchain with ⟨hrel, _⟩
        exact hrel ⟨rfl, rfl⟩
      | cons c1 t' =>
        have hc1 : c1 = '-' := by
          have hc1mem : c1 ∈ slugifyL (replaceFirst mdChars f.data) := by
            rw [hdata]
            simp
          rcases (mem_slugifyL_allowed c1 _ hc1mem).1 with hw | hh
          · have hfw := hnw c1 (by rw [hO]; simp)
            rw [hw] at hfw
            cases hfw
          · exact hh
        rw [hdata] at hchain
        simp only [List.cons_append] at hchain
        rw [hc0, hc1] at hchain
        rcases List.chain'_cons.1 hchain with ⟨hrel, _⟩
        exact hrel ⟨rfl, rfl⟩

/-- Witness for the C9 theorem at a concrete owner and file name. -/
theorem github_local_slugs_distinct_witness :
    (mkGithubPost "octo" "r" "hello.md" emptyFm "b" "n").slug =
        "octo" ++ "-" ++ slugify (rawSlug "hello.md") ∧
      (mkGithubPost "octo" "r" "hello.md" emptyFm "b" "n").id =
        "post-" ++ "octo" ++ "-" ++ slugify (rawSlug "hello.md") ∧
      (mkLocalPost "hello.md" emptyFm "b2" "n2").slug ≠
        (mkGithubPost "octo" "r" "hello.md" emptyFm "b" "n").slug :=
  github_local_slugs_distinct "octo" "r" "hello.md" emptyFm emptyFm "b" "b2" "n" "n2"
    "hello".data (by decide) (by decide) (by decide) (by decide)

/-!
## Claim C10: local vs remote slug derivation
-/

lemma startsL_md_append (l : List Char) (hne : l ≠ [])
    (h : startsL mdChars l = false) : startsL mdChars (l ++ mdChars) = false := by
  rcases l with _ | ⟨c1, _ | ⟨c2, _ | ⟨c3, rest⟩⟩⟩
  · exact absurd rfl hne
  · simp [mdChars, startsL]
  · simp [mdChars, startsL]
  · simp only [mdChars, startsL, List.cons_append] at h ⊢
    simpa using (by simpa using h : _)

lemma replaceFirst_trailing :
    ∀ stem : List Char, occursL mdChars stem = false →
      replaceFirst mdChars (stem ++ mdChars) = stem := by
  intro stem
  induction stem with
  | nil =>
    intro _
    simp only [List.nil_append]
    decide
  | cons c rest ih =>
    intro h
    simp only [occursL, Bool.or_eq_false_iff] at h
    have hs : startsL mdChars ((c :: rest) ++ mdChars) = false :=
      startsL_md_append (c :: rest) (by simp) h.1
    rw [List.cons_append] at hs
    rw [List.cons_append, replaceFirst, if_neg (by simp [hs]), ih h.2]

/-- **C10 counterexample.** The two derivations disagree on `".md"` (where
`".md"` occurs only as the trailing extension, yet the remote fallback keeps
the whole name while the local derivation deletes it), and agree on
`".md.md"` (where an earlier occurrence exists, yet both yield `"-md"`);
they do differ on `"a.md-b.md"`. -/
theorem local_remote_derivation_cex :
    (localSlug ".md" = "" ∧ slugify (rawSlug ".md") = "-md") ∧
      (localSlug ".md.md" = "-md" ∧ slugify (rawSlug ".md.md") = "-md") ∧
      (localSlug "a.md-b.md" = "a-b-md" ∧ slugify (rawSlug "a.md-b.md") = "a-md-b") := by
  refine ⟨⟨by decide, by decide⟩, ⟨by decide, by decide⟩, ⟨by decide, by decide⟩⟩

/-- **C10 (amended).** For a file name with a nonempty stem in which `".md"`
occurs only as the trailing extension, the local derivation (delete the
first `".md"`) and the remote derivation (strip a trailing `".md"`, with the
empty-segment fallback) produce the same slug; when `".md"` also occurs
earlier, the local derivation deletes that earlier occurrence and the
trailing `".md"` survives into the slug, and the two derivations can differ
(they do on `"a.md-b.md"`) but can also coincide (they do on `".md.md"`). -/
theorem local_remote_derivation_agree (f : String) (stem : List Char)
    (hsplit : f.data = stem ++ mdChars) (hOnly : occursL mdChars stem = false)
    (hne : stem ≠ []) (hNS : '/' ∉ f.data) :
    localSlug f = slugify (rawSlug f) ∧
      localSlug "a.md-b.md" ≠ slugify (rawSlug "a.md-b.md") ∧
      localSlug ".md.md" = slugify (rawSlug ".md.md") := by
  refine ⟨?_, by decide, by decide⟩
  have hraw : (rawSlug f).data = stem := rawSlug_data f stem hsplit hNS hne
  apply string_ext_of_data
  show slugifyL (replaceFirst mdChars f.data) = slugifyL (rawSlug f).data
  rw [hraw, hsplit, replaceFirst_trailing stem hOnly]

/-- Witness for the amended C10 theorem at a concrete file name. -/
theorem local_remote_derivation_agree_witness :
    localSlug "hello.md" = slugify (rawSlug "hello.md") ∧
      localSlug "a.md-b.md" ≠ slugify (rawSlug "a.md-b.md") ∧
      localSlug ".md.md" = slugify (rawSlug ".md.md") :=
  local_remote_derivation_agree "hello.md" "hello".data (by decide) (by decide)
    (by decide) (by decide)

/-!
## Claim C3: HTML escaping of injected metadata
-/

/-- The per-character escape table of `escapeHtml`. -/
def entityOf (c : Char) : List Char :=
  if c = '&' then "&amp;".data
  else if c = '<' then "&lt;".data
  else if c = '>' then "&gt;".data
  else if c = '"' then "&quot;".data
  else if c = apos then "&#039;".data
  else [c]

/-- Character-by-character view of the whole escape chain. -/
def escapeSpecL : List Char → List Char
  | [] => []
  | c :: rest => entityOf c ++ escapeSpecL rest

lemma replaceChar_append (t : Char) (rep : List Char) :
    ∀ a b : List Char, replaceChar t rep (a ++ b) = replaceChar t rep a ++ replaceChar t rep b := by
  intro a b
  induction a with
  | nil => rfl
  | cons c rest ih =>
    simp [replaceChar, ih, List.append_assoc]

lemma escapeHtmlL_append (a b : List Char) :
    escapeHtmlL (a ++ b) = escapeHtmlL a ++ escapeHtmlL b := by
  simp [escapeHtmlL, replaceChar_append]

lemma escapeHtmlL_singleton (c : Char) : escapeHtmlL [c] = entityOf c := by
  by_cases h1 : c = '&'
  · subst h1; decide
  by_cases h2 : c = '<'
  · subst h2; decide
  by_cases h3 : c = '>'
  · subst h3; decide
  by_cases h4 : c = '"'
  · subst h4; decide
  by_cases h5 : c = apos
  · subst h5; decide
  simp [escapeHtmlL, replaceChar, entityOf, h1, h2, h3, h4, h5]

lemma escapeHtmlL_eq_spec : ∀ l : List Char, escapeHtmlL l = escapeSpecL l := by
  intro l
  induction l with
  | nil => rfl
  | cons c rest ih =>
    have hsplit : c :: rest = [c] ++ rest := rfl
    rw [hsplit, escapeHtmlL_append, escapeHtmlL_singleton, ih]
    rfl

/-- The five entities emitted by `escapeHtml`. -/
def entityList : List (List Char) :=
  ["&amp;".data, "&lt;".data, "&gt;".data, "&quot;".data, "&#039;".data]

/-- A character list in which the five characters handled by `escapeHtml`
appear only as (the leading ampersand of) one of the five complete escape
entities: it is a concatenation of whole entities and plain characters that
are none of the five. -/
inductive EscapedOnly : List Char → Prop where
  | nil : EscapedOnly []
  | ent (e l : List Char) : e ∈ entityList → EscapedOnly l → EscapedOnly (e ++ l)
  | chr (c : Char) (l : List Char) :
      ¬(c = '&' ∨ c = '<' ∨ c = '>' ∨ c = '"' ∨ c = apos) → EscapedOnly l →
      EscapedOnly (c :: l)

lemma escapedOnly_spec : ∀ l : List Char, EscapedOnly (escapeSpecL l) := by
  intro l
  induction l with
  | nil => exact EscapedOnly.nil
  | cons c rest ih =>
    show EscapedOnly (entityOf c ++ escapeSpecL rest)
    by_cases h1 : c = '&'
    · subst h1
      exact EscapedOnly.ent _ _ (by decide) ih
    by_cases h2 : c = '<'
    · subst h2
      exact EscapedOnly.ent _ _ (by decide) ih
    by_cases h3 : c = '>'
    · subst h3
      exact EscapedOnly.ent _ _ (by decide) ih
    by_cases h4 : c = '"'
    · subst h4
      exact EscapedOnly.ent _ _ (by decide) ih
    by_cases h5 : c = apos
    · subst h5
      exact EscapedOnly.ent _ _ (by decide) ih
    have hplain : entityOf c = [c] := by simp [entityOf, h1, h2, h3, h4, h5]
    rw [hplain]
    exact EscapedOnly.chr c _ (by tauto) ih

lemma entity_chars_safe :
    ∀ e ∈ entityList, ∀ x ∈ e, ¬(x = '<' ∨ x = '>' ∨ x = '"' ∨ x = apos) := by decide

lemma escapedOnly_no_raw_char (c : Char)
    (hc : c = '<' ∨ c = '>' ∨ c = '"' ∨ c = apos) :
    ∀ l : List Char, EscapedOnly l → c ∉ l := by
  intro l h
  induction h with
  | nil => simp
  | ent e t he _ ih =>
    intro hmem
    rcases List.mem_append.1 hmem with hm | hm
    · exact entity_chars_safe e he c hm hc
    · exact ih hm
  | chr c2 t hb _ ih =>
    intro hmem
    rcases List.mem_cons.1 hmem with hm | hm
    · subst hm
      exact hb (by tauto)
    · exact ih hm

lemma escapedOnly_no_raw (l : List Char) (h : EscapedOnly l) :
    '<' ∉ l ∧ '>' ∉ l ∧ '"' ∉ l ∧ apos ∉ l :=
  ⟨escapedOnly_no_raw_char '<' (by tauto) l h,
    escapedOnly_no_raw_char '>' (by tauto) l h,
    escapedOnly_no_raw_char '"' (by tauto) l h,
    escapedOnly_no_raw_char apos (by tauto) l h⟩

/-- **C3 (amended).** Every injected head value that passes through
`escapeHtml` (title, description, OG title/description, author, keyword
list) occurs in the document only as entity-clean text: the escaped output
contains none of the angle brackets or quote characters and its ampersands
only start complete entities.  The published date, by contrast, is
interpolated raw into the template, as the (definitional) decomposition of
`initialHtml` shows. -/
theorem escaped_fields_only_entities :
    (∀ s : String, EscapedOnly (escapeHtml s).data ∧
        '<' ∉ (escapeHtml s).data ∧ '>' ∉ (escapeHtml s).data ∧
        '"' ∉ (escapeHtml s).data ∧ apos ∉ (escapeHtml s).data) ∧
      ∀ (p : BlogPost) (nav : String),
        initialHtml p nav =
          htmlSeg1 ++ escapeHtml p.title ++ htmlSeg2 ++ escapeHtml p.description ++
            htmlSeg3 ++ escapeHtml p.title ++ htmlSeg4 ++ escapeHtml p.description ++
            htmlSeg5 ++ dateStr p.date ++ htmlSeg6 ++
            escapeHtml (jsOr p.metadata.author "Unknown") ++ htmlSeg7 ++
            keywordsMeta p.metadata.tags ++ htmlSeg8 ++ nav ++ htmlSeg9 := by
  constructor
  · intro s
    have hd : (escapeHtml s).data = escapeSpecL s.data := escapeHtmlL_eq_spec s.data
    have hesc : EscapedOnly (escapeHtml s).data := by
      rw [hd]
      exact escapedOnly_spec s.data
    obtain ⟨ha, hb, hc, he⟩ := escapedOnly_no_raw _ hesc
    exact ⟨hesc, ha, hb, hc, he⟩
  · intro p nav
    rfl

/-- A concrete post whose frontmatter date carries an HTML injection. -/
def xssPostC3 : BlogPost :=
  mkLocalPost "xss.md"
    { title := some "Title", description := some "Desc",
      date := some "\"><script>alert(1)</script>" }
    "" "now"

set_option maxRecDepth 100000 in
/-- **C3 counterexample.** The published date is interpolated into the head
unescaped: a date value containing markup reaches the generated page as raw
`<script>` markup (while `escapeHtml` applied to the same value would have
contained no raw angle bracket). -/
theorem date_not_escaped :
    dateStr xssPostC3.date = "\"><script>alert(1)</script>" ∧
      occursL "<script>alert(1)</script>".data
        (pageHtml (fun s => Except.ok s) (fun _ => "") (fun _ => "") xssPostC3).data =
        true ∧
      occursL "<script>".data (escapeHtml "\"><script>alert(1)</script>").data = false := by
  refine ⟨by decide, by decide, by decide⟩
